import Mathlib

/-!
Verification of the blink-tree found in `src/node.h` (classes `Node`,
`InternalNode<key_t>`, `LeafNode<key_t>` and the `BLinkTree<key_t>` of the
`blink_tree.h` portion of that file) and of the second `BLinkTree<key_t>`
in `src/unnamed/part_000`.

Embedding conventions:
* Keys are `key_t = uint64_t` (the only instantiation used by the repo's
  benchmark) and values are `uint64_t`; both are modelled as `Nat` — no
  arithmetic is ever performed on them, only comparisons, so no wrap-around
  can occur.
* The version latch word is modelled as `Nat` with an explicit `% 2 ^ 64`
  where the code adds to it.
* All tree-level theorems are about single-threaded executions.  In a
  sequential run every `try_readlock` / `get_version` / `try_upgrade_writelock`
  trivially succeeds (nobody else can hold a lock or bump a version between
  the optimistic read and its validation), so the `goto restart` paths of the
  orchestrator are unreachable and the lock words are inert; the sequential
  embedding therefore elides them and models the success path of each loop.
* Heap pointers are modelled as indices into a list of nodes; `new` appends
  to the list.  Null pointers (`sibling_ptr`) become `Option Nat`.
* Unbounded `while` loops become fuel-indexed recursions returning `Option`
  (`none` = out of fuel), so every definition is executable.
-/

namespace BlinkTreeModel

set_option maxRecDepth 1000000

/-! ### Version latch (class `Node`, src/node.h lines 20-115) -/

def wordSize : Nat := 2 ^ 64

/-- Mirrors `Node::is_locked` (src/node.h:38): the 0b10 bit of the version
word is set. -/
def is_locked (version : Nat) : Bool := version &&& 0b10 == 0b10

/-- Mirrors `Node::is_obsolete` (src/node.h:40): the low bit is set. -/
def is_obsolete (version : Nat) : Bool := (version &&& 1) == 1

/-- Mirrors `Node::need_restart` (src/node.h:108-113): restart is signalled
iff the observed version is locked or obsolete. -/
def need_restart (version : Nat) : Bool := is_locked version || is_obsolete version

/-- Sequential model of `Node::try_writelock` (src/node.h:64-76).  The code
loads the version, runs `need_restart`, and then — exactly as written in the
source — returns `false` when restart was NOT signalled; only when restart
WAS signalled does it attempt the CAS `version -> version + 0b10`.  In a
single-threaded run the word cannot change between the load and the CAS, so
the CAS succeeds.  Returns (result, version word afterwards). -/
def try_writelock (version : Nat) : Bool × Nat :=
  if !need_restart version then (false, version)
  else (true, (version + 0b10) % wordSize)

/-! ### Nodes (src/node.h lines 117-384)

The source distinguishes `InternalNode<key_t>` and `LeafNode<key_t>`, but the
two classes have identical layout (`Node` base, then `high_key`, then an array
of 16-byte entries), the orchestrator dispatches purely on `level` (0 = leaf,
else internal) and even reinterprets the level-0 root `InternalNode` created
by the `BLinkTree` constructor as a `LeafNode`.  We therefore model a single
record.  For a leaf, `entries` holds (key, value) pairs and `last` is unused
(0).  For an internal node, `entry[i] = (k_i, p_i)` pairs a key with the child
to its LEFT and `entry[cnt].value` holds the rightmost child `p_cnt`, which we
model as the separate field `last`.  `cnt` is `entries.length`. -/

structure HNode where
  level : Nat
  high_key : Nat
  sibling : Option Nat
  entries : List (Nat × Nat)
  last : Nat
  deriving DecidableEq

instance : Inhabited HNode := ⟨⟨0, 0, none, [], 0⟩⟩

/-- Entry capacity of both node kinds:
`(PAGE_SIZE - sizeof(Node) - sizeof(key_t)) / sizeof(Entry)` with
`PAGE_SIZE = 512`, `sizeof(Node) = 24`, `sizeof(key_t) = 8` and 16-byte
entries, i.e. 30 — matching the `InternalNode_Size(30), LeafNode_Size(30)`
line printed by the repository's benchmark. -/
def cardinality : Nat := (512 - 24 - 8) / 16

namespace LeafNode

/-- Mirrors `LeafNode::lowerbound_linear` (src/node.h:349-354): index of the
first entry with `key <= entry[i].key`, else `cnt`. -/
def lowerbound_linear (key : Nat) : List (Nat × Nat) → Nat
  | [] => 0
  | e :: rest => if key ≤ e.1 then 0 else lowerbound_linear key rest + 1

/-- Mirrors `LeafNode::find_linear` (src/node.h:366-374): value of the first
entry whose key equals `key`, else 0. -/
def find_linear (key : Nat) : List (Nat × Nat) → Nat
  | [] => 0
  | e :: rest => if key = e.1 then e.2 else find_linear key rest

/-- Mirrors `LeafNode::find_pos_linear` (src/node.h:376-383): index of the
first entry whose key equals `key`; the source's `-1` sentinel becomes
`none`. -/
def find_pos_linear (key : Nat) : List (Nat × Nat) → Option Nat
  | [] => none
  | e :: rest =>
      if key = e.1 then some 0
      else (find_pos_linear key rest).map (· + 1)

/-- Mirrors `LeafNode::update_linear` (src/node.h:356-364): overwrite the
value of the first entry whose key equals `key` in place; result flag says
whether a matching entry was found. -/
def update_linear (key value : Nat) : List (Nat × Nat) → Bool × List (Nat × Nat)
  | [] => (false, [])
  | e :: rest =>
      if key = e.1 then (true, (e.1, value) :: rest)
      else
        let r := update_linear key value rest
        (r.1, e :: r.2)

/-- Mirrors `LeafNode::is_full` (src/node.h:276): `cnt == cardinality`. -/
def is_full (n : HNode) : Bool := n.entries.length == cardinality

/-- Mirrors `LeafNode::find_lowerbound` (src/node.h:282). -/
def find_lowerbound (n : HNode) (key : Nat) : Nat := lowerbound_linear key n.entries

/-- Mirrors `LeafNode::find` (src/node.h:288). -/
def find (n : HNode) (key : Nat) : Nat := find_linear key n.entries

/-- Mirrors `LeafNode::insert` (src/node.h:293-308): when `cnt` is nonzero,
shift the tail from the lowerbound position one slot right and write
`(key, value)` there; when `cnt` is zero write slot 0 directly; then `cnt++`
and raise `high_key` when `key` exceeds it. -/
def insert (n : HNode) (key value : Nat) : HNode :=
  let newEntries :=
    if n.entries.length ≠ 0 then
      let pos := find_lowerbound n key
      n.entries.take pos ++ (key, value) :: n.entries.drop pos
    else [(key, value)]
  { n with entries := newEntries,
           high_key := if key > n.high_key then key else n.high_key }

/-- Mirrors `LeafNode::split` (src/node.h:317-331).  `newId` is the heap index
the caller will allocate for the new right leaf.  Returns
(updated self, new right leaf, split key).  `half = cnt / 2`; the split key is
`entry[half - 1].key`; the right leaf receives `entry[half..cnt)`, the old
sibling, the old `high_key` and the level; self keeps `entry[0..half)`, its
`high_key` becomes the split key and its sibling the new leaf. -/
def split (n : HNode) (newId : Nat) : HNode × HNode × Nat :=
  let cnt := n.entries.length
  let half := cnt / 2
  let split_key := (n.entries.getD (half - 1) (0, 0)).1
  let newLeaf : HNode :=
    { level := n.level, high_key := n.high_key, sibling := n.sibling,
      entries := n.entries.drop half, last := 0 }
  ({ n with sibling := some newId, high_key := split_key,
            entries := n.entries.take half },
   newLeaf, split_key)

/-- Mirrors `LeafNode::remove` (src/node.h:333-344): locate the first entry
with a matching key, shift the tail left over it and decrement `cnt`;
`false` when `cnt` is zero or no entry matches. -/
def remove (n : HNode) (key : Nat) : Bool × HNode :=
  if n.entries.length ≠ 0 then
    match find_pos_linear key n.entries with
    | none => (false, n)
    | some pos =>
        (true, { n with entries := n.entries.take pos ++ n.entries.drop (pos + 1) })
  else (false, n)

/-- Mirrors `LeafNode::update` (src/node.h:346). -/
def update (n : HNode) (key value : Nat) : Bool × HNode :=
  let r := update_linear key value n.entries
  (r.1, { n with entries := r.2 })

end LeafNode

namespace InternalNode

/-- Mirrors `InternalNode::lowerbound_linear` (src/node.h:239-246): index of
the first entry with `entry[i].key >= key`, else `cnt`. -/
def lowerbound_linear (key : Nat) : List (Nat × Nat) → Nat
  | [] => 0
  | e :: rest => if e.1 ≥ key then 0 else lowerbound_linear key rest + 1

/-- Mirrors `InternalNode::is_full` (src/node.h:163): `cnt == cardinality - 1`
(one spare slot is needed by the insert procedure). -/
def is_full (n : HNode) : Bool := n.entries.length == cardinality - 1

/-- Mirrors `InternalNode::find_lowerbound` (src/node.h:169). -/
def find_lowerbound (n : HNode) (key : Nat) : Nat := lowerbound_linear key n.entries

/-- The child pointer stored in `entry[i].value`: the source's entry array has
`cnt + 1` live child slots, the last of which is our `last` field. -/
def childAt (n : HNode) (i : Nat) : Nat :=
  if h : i < n.entries.length then (n.entries.get ⟨i, h⟩).2 else n.last

/-- Mirrors `InternalNode::leftmost_ptr` (src/node.h:184). -/
def leftmost_ptr (n : HNode) : Nat := childAt n 0

/-- Mirrors `InternalNode::scan_node` (src/node.h:176-182): the sibling when
it exists and `high_key < key`, else the child at the lowerbound position. -/
def scan_node (n : HNode) (key : Nat) : Nat :=
  match n.sibling with
  | some s => if n.high_key < key then s else childAt n (find_lowerbound n key)
  | none => childAt n (find_lowerbound n key)

/-- Mirrors `InternalNode::insert` (src/node.h:189-200).  The source
`memmove`s `entry[pos..cnt]` one slot right (keys and child pointers), writes
`entry[pos] = (key, child)`, then swaps `entry[pos].value` with
`entry[pos + 1].value`, so the old child at `pos` stays to the left of the new
key and `child` lands to its right; `cnt++`; `high_key` is raised when `key`
exceeds it.  When `pos = cnt` the shifted region is just the trailing child
slot, so the new key pairs with the old `last` child and `child` becomes the
new `last`. -/
def insert (n : HNode) (key child : Nat) : HNode :=
  let pos := find_lowerbound n key
  if h : pos < n.entries.length then
    let e := n.entries.get ⟨pos, h⟩
    { n with
      entries := n.entries.take pos ++ (key, e.2) :: (e.1, child) :: n.entries.drop (pos + 1),
      high_key := if key > n.high_key then key else n.high_key }
  else
    { n with entries := n.entries ++ [(key, n.last)], last := child,
             high_key := if key > n.high_key then key else n.high_key }

/-- Mirrors `InternalNode::split` (src/node.h:218-232).  `half = cnt - cnt/2`;
the split key is `entry[half].key`.  The constructor call stores
`entry[half].value` into the new node's slot 0, but the following `memcpy` of
`new_cnt + 1` entries from `entry + half + 1` begins at `new_node->entry[0]`
and overwrites that slot entirely: the new right node ends up holding
`entry[half+1..cnt)` as its entries and the old trailing child as its `last`,
so its leftmost child is `entry[half+1].value`.  Self keeps `entry[0..half)`
with `entry[half].value` as its new trailing child (`cnt = half` leaves that
slot live), `high_key = entry[half].key`, `sibling = ` the new node. -/
def split (n : HNode) (newId : Nat) : HNode × HNode × Nat :=
  let cnt := n.entries.length
  let half := cnt - cnt / 2
  let split_key := (n.entries.getD half (0, 0)).1
  let newNode : HNode :=
    { level := n.level, high_key := n.high_key, sibling := n.sibling,
      entries := n.entries.drop (half + 1), last := n.last }
  ({ n with sibling := some newId, high_key := split_key,
            last := (n.entries.getD half (0, 0)).2,
            entries := n.entries.take half },
   newNode, split_key)

end InternalNode

/-! ### Tree orchestrator

`src/node.h` (the `blink_tree.h` portion, lines 417-841) and
`src/unnamed/part_000` each define a `BLinkTree<key_t>`.  Sequentially the two
are identical except for one comparison: when an internal node splits during
upward split propagation, the `node.h` variant sends a pending separator equal
to the newly promoted split key to the RIGHT half (`insert_key < split_key`
routes left, src/node.h:728), while the `part_000` variant sends it to the
LEFT half (`split_key <= _split_key` routes left, src/unnamed/part_000:146).
We model one engine parameterised by that comparison (`eqLeft`), and record in
a result flag whether an internal split with `insert_key = split_key` — the
only situation where the two comparisons disagree — occurred. -/

/-- Tree state: the node heap (indices are the pointers) and the root index. -/
structure Tree where
  heap : List HNode
  root : Nat
  deriving DecidableEq

def Tree.getNode (t : Tree) (i : Nat) : HNode := t.heap.getD i default

def Tree.setNode (t : Tree) (i : Nat) (n : HNode) : Tree :=
  { t with heap := t.heap.set i n }

/-- Mirrors the `BLinkTree` constructor (src/node.h:423, src/unnamed/part_000:13):
the root is a fresh default `InternalNode` — level 0, `cnt` 0, null sibling;
its `high_key` is left uninitialised by the source and modelled as 0 (it is
never compared before being overwritten along any executed path). -/
def initTree : Tree := ⟨[⟨0, 0, none, [], 0⟩], 0⟩

/-- The rightward hop loop shared by the leaf step of
`traverse_to_leafnode` (src/node.h:622-636), the parent re-location loop of
`backtrack_insertion_split_key` (src/node.h:695-709) and the two loops of
`update_splitted_root` (src/node.h:791-806):
`while (cur->sibling_ptr && cur->high_key < key) cur = cur->sibling_ptr`. -/
def chase (t : Tree) (key : Nat) : Nat → Nat → Option Nat
  | 0, _ => none
  | fuel + 1, cur =>
      let n := t.getNode cur
      match n.sibling with
      | some s => if n.high_key < key then chase t key fuel s else some cur
      | none => some cur

/-- The descent loop of `traverse_to_leafnode` (src/node.h:592-617): while the
current node is internal, step to `scan_node(key)`, pushing the current node
on the stack unless the step went to its sibling.  Returns the stack (in
root-to-parent order) and the node at level 0. -/
def descendLoop (t : Tree) (key : Nat) :
    Nat → Nat → List Nat → Option (List Nat × Nat)
  | 0, _, _ => none
  | fuel + 1, cur, stack =>
      let n := t.getNode cur
      if n.level ≠ 0 then
        let child := InternalNode.scan_node n key
        let stack' := if some child = n.sibling then stack else stack ++ [cur]
        descendLoop t key fuel child stack'
      else some (stack, cur)

/-- Mirrors `BLinkTree::traverse_to_leafnode` (src/node.h:577-640): descend
from the root to level 0, then hop right along the leaf chain while the leaf
cannot cover the key. -/
def traverse_to_leafnode (t : Tree) (key : Nat) (fuel : Nat) :
    Option (List Nat × Nat) := do
  let sc ← descendLoop t key fuel t.root []
  let leaf ← chase t key fuel sc.2
  pure (sc.1, leaf)

/-- The new-root constructor call
`new InternalNode<key_t>(split_key, left, right, nullptr, left->level + 1, right->high_key)`
(src/node.h:154-161 with call sites 668-670, 741-743, 828-830): one key, the
two children, no sibling. -/
def newRootNode (split_key leftId rightId : Nat) (level high : Nat) : HNode :=
  { level := level, high_key := high, sibling := none,
    entries := [(split_key, leftId)], last := rightId }

/-- The level-targeted descent loop of `update_splitted_root`
(src/node.h:774-788): `while (cur->level != target) cur = scan_node(key)`. -/
def usrDescend (t : Tree) (key target : Nat) : Nat → Nat → Option Nat
  | 0, _ => none
  | fuel + 1, cur =>
      if (t.getNode cur).level ≠ target then
        usrDescend t key target fuel (InternalNode.scan_node (t.getNode cur) key)
      else some cur

/-- Mirrors `BLinkTree::update_splitted_root` (src/node.h:762-839), the
recursive routine used when the root changed between descent and split
propagation (unreachable in sequential runs, but modelled faithfully):
descend to level `prev.level + 1` by `scan_node`, hop right, then either a
plain insert or a split (routing `key <= split_key` to the left half — both
source variants agree here) followed by root growth or recursion. -/
def update_splitted_root (t : Tree) (key valueId prevId : Nat) :
    Nat → Option Tree
  | 0 => none
  | fuel + 1 => do
      let cur ← usrDescend t key ((t.getNode prevId).level + 1) fuel t.root
      let cur ← chase t key fuel cur
      let node := t.getNode cur
      if ¬InternalNode.is_full node then
        pure (t.setNode cur (InternalNode.insert node key valueId))
      else
        let newId := t.heap.length
        let sp := InternalNode.split node newId
        let t1 := (t.setNode cur sp.1)
        let t2 : Tree := { t1 with heap := t1.heap ++ [sp.2.1] }
        let t3 :=
          if key ≤ sp.2.2 then t2.setNode cur (InternalNode.insert sp.1 key valueId)
          else t2.setNode newId (InternalNode.insert sp.2.1 key valueId)
        if cur = t3.root then
          let nr := newRootNode sp.2.2 cur newId (node.level + 1)
            (t3.getNode newId).high_key
          pure { heap := t3.heap ++ [nr], root := t3.heap.length }
        else
          update_splitted_root t3 sp.2.2 newId cur fuel

/-- The single comparison on which the two source files differ: whether a
pending separator is routed into the LEFT half of a freshly split internal
node.  `src/unnamed/part_000:146` routes left when `split_key <= _split_key`
(`eqLeft = true`); `src/node.h:728` routes left when `insert_key < split_key`
(`eqLeft = false`), sending an EQUAL separator right instead. -/
def splitRouteLeft (eqLeft : Bool) (a b : Nat) : Bool :=
  if eqLeft then decide (a ≤ b) else decide (a < b)

/-- The `while (stack_idx > -1)` loop of
`BLinkTree::backtrack_insertion_split_key` (src/node.h:686-752) and,
equivalently, the backtrack loop of `part_000`'s `insert`
(src/unnamed/part_000:103-167).  `rstack` is the descent stack reversed
(parent first), `leftId`/`rightId` the freshly split pair and `split_key` the
separator pending insertion.  Each iteration re-locates the parent by hopping
right, then either inserts the separator (done) or splits the parent and
continues one level up; at the bottom of the stack the root is grown (the
sequential case) or `update_splitted_root` takes over.  `eqLeft` selects the
one comparison on which the two source files differ: a pending separator
EQUAL to the newly promoted split key goes to the left half iff `eqLeft`
(src/unnamed/part_000:146 uses `split_key <= _split_key`; src/node.h:728 uses
`insert_key < split_key`).  The returned flag records whether that equal case
was ever hit. -/
def backtrackLoop (eqLeft : Bool) (t : Tree) (fuel : Nat) :
    List Nat → Nat → Nat → Nat → Option (Tree × Bool)
  | [], _, _, _ => none
  | parent₀ :: rest, _leftId, rightId, split_key => do
      let parent ← chase t split_key fuel parent₀
      let pn := t.getNode parent
      if ¬InternalNode.is_full pn then
        pure (t.setNode parent (InternalNode.insert pn split_key rightId), false)
      else
        let insert_key := split_key
        let newPid := t.heap.length
        let sp := InternalNode.split pn newPid
        let t1 := t.setNode parent sp.1
        let t2 : Tree := { t1 with heap := t1.heap ++ [sp.2.1] }
        let event : Bool := insert_key = sp.2.2
        let goLeft := splitRouteLeft eqLeft insert_key sp.2.2
        let t3 :=
          if goLeft then t2.setNode parent (InternalNode.insert sp.1 insert_key rightId)
          else t2.setNode newPid (InternalNode.insert sp.2.1 insert_key rightId)
        if rest.isEmpty then
          let tr2 ←
            if parent = t3.root then
              let nr := newRootNode sp.2.2 parent newPid (sp.1.level + 1)
                (t3.getNode newPid).high_key
              some { heap := t3.heap ++ [nr], root := t3.heap.length }
            else
              update_splitted_root t3 sp.2.2 newPid parent fuel
          pure (tr2, event)
        else
          let r ← backtrackLoop eqLeft t3 fuel rest parent newPid sp.2.2
          pure (r.1, r.2 || event)

/-- Mirrors `BLinkTree::backtrack_insertion_split_key` (src/node.h:652-754)
and lines 90-181 of `part_000`'s `insert`: split the full leaf, place the
pending (key, value) into the half selected by `key <= split_key` (both
variants agree on this leaf-level comparison), then either grow the root
(empty stack) or run the backtrack loop. -/
def backtrack_insertion_split_key (eqLeft : Bool) (t : Tree) (fuel : Nat)
    (stack : List Nat) (leafId key value : Nat) : Option (Tree × Bool) :=
  let newId := t.heap.length
  let ln := t.getNode leafId
  let sp := LeafNode.split ln newId
  let t1 := t.setNode leafId sp.1
  let t2 : Tree := { t1 with heap := t1.heap ++ [sp.2.1] }
  let t3 :=
    if key ≤ sp.2.2 then t2.setNode leafId (LeafNode.insert sp.1 key value)
    else t2.setNode newId (LeafNode.insert sp.2.1 key value)
  if stack.isEmpty then
    if leafId = t3.root then
      let nr := newRootNode sp.2.2 leafId newId (sp.1.level + 1)
        (t3.getNode newId).high_key
      some ({ heap := t3.heap ++ [nr], root := t3.heap.length }, false)
    else
      (update_splitted_root t3 sp.2.2 newId leafId fuel).map (fun tr => (tr, false))
  else backtrackLoop eqLeft t3 fuel stack.reverse leafId newId sp.2.2

/-- Mirrors `BLinkTree::insert` (src/node.h:429-449, src/unnamed/part_000:21-182),
parameterised by the routing comparison that distinguishes the two source
files: descend, then plain leaf insert when the leaf is not full, else split
propagation. -/
def insertCore (eqLeft : Bool) (t : Tree) (key value : Nat) (fuel : Nat) :
    Option (Tree × Bool) := do
  let sl ← traverse_to_leafnode t key fuel
  let ln := t.getNode sl.2
  if ¬LeafNode.is_full ln then
    pure (t.setNode sl.2 (LeafNode.insert ln key value), false)
  else
    backtrack_insertion_split_key eqLeft t fuel sl.1 sl.2 key value

namespace BLinkTree

/-- `BLinkTree::insert` of src/node.h (the embedded `blink_tree.h`). -/
def insert (t : Tree) (key value : Nat) (fuel : Nat) : Option Tree :=
  (insertCore false t key value fuel).map (·.1)

/-- Mirrors `BLinkTree::lookup` (src/node.h:477-493): descend and run
`LeafNode::find` on the reached leaf. -/
def lookup (t : Tree) (key : Nat) (fuel : Nat) : Option Nat :=
  (traverse_to_leafnode t key fuel).map (fun sl => LeafNode.find (t.getNode sl.2) key)

/-- Mirrors `BLinkTree::update` (src/node.h:454-472): descend and run
`LeafNode::update` on the reached leaf. -/
def update (t : Tree) (key value : Nat) (fuel : Nat) : Option (Bool × Tree) :=
  (traverse_to_leafnode t key fuel).map (fun sl =>
    let r := LeafNode.update (t.getNode sl.2) key value
    (r.1, t.setNode sl.2 r.2))

/-- Mirrors `BLinkTree::remove` (src/node.h:498-515): descend and run
`LeafNode::remove` on the reached leaf. -/
def remove (t : Tree) (key : Nat) (fuel : Nat) : Option (Bool × Tree) :=
  (traverse_to_leafnode t key fuel).map (fun sl =>
    let r := LeafNode.remove (t.getNode sl.2) key
    (r.1, t.setNode sl.2 r.2))

/-- Mirrors `BLinkTree::height` (src/node.h:567 and
src/unnamed/part_000:524-527): the root node's `level`, returned as the C++
`int`. -/
def height (t : Tree) : Int := ((t.getNode t.root).level : Int)

end BLinkTree

namespace BLinkTreeAlt

/-- `BLinkTree::insert` of src/unnamed/part_000 (identical to the `node.h`
variant except for the equal-separator routing comparison). -/
def insert (t : Tree) (key value : Nat) (fuel : Nat) : Option Tree :=
  (insertCore true t key value fuel).map (·.1)

end BLinkTreeAlt

/-! ### Operation sequences

Machinery for claims quantifying over sequences of public operations: an
operation alphabet, a single step of either engine, and a runner.  The
sequential `lookup` / `update` / `remove` / `height` of the two source files
are textually identical up to dead lock-handling code, so both engines share
them; only `insert` takes the engine flag.  The step result carries the tree,
the equal-separator event flag and the operation's observable result (0 for
`insert`, 0/1 for the booleans of `update` and `remove`, the looked-up value
for `lookup`). -/

inductive Op where
  | ins (key value : Nat)
  | upd (key value : Nat)
  | rem (key : Nat)
  | look (key : Nat)
  deriving DecidableEq

def stepCore (eqLeft : Bool) (fuel : Nat) (t : Tree) :
    Op → Option (Tree × Bool × Nat)
  | .ins k v => (insertCore eqLeft t k v fuel).map (fun r => (r.1, r.2, 0))
  | .upd k v =>
      (BLinkTree.update t k v fuel).map (fun r => (r.2, false, if r.1 then 1 else 0))
  | .rem k =>
      (BLinkTree.remove t k fuel).map (fun r => (r.2, false, if r.1 then 1 else 0))
  | .look k => (BLinkTree.lookup t k fuel).map (fun r => (t, false, r))

/-- Run a sequence of operations from a tree state, collecting the final
state, whether any equal-separator internal split occurred, and the list of
observable results. -/
def runCore (eqLeft : Bool) (fuel : Nat) : List Op → Tree → Option (Tree × Bool × List Nat)
  | [], t => some (t, false, [])
  | op :: ops, t => do
      let s ← stepCore eqLeft fuel t op
      let r ← runCore eqLeft fuel ops s.1
      pure (r.1, s.2.1 || r.2.1, s.2.2 :: r.2.2)

/-- Tree states reachable (in the single-threaded semantics, under the
`node.h` engine) from the freshly constructed tree by any sequence of public
operations; `lookup`, `range_lookup` and `height` do not modify the state. -/
inductive Reachable : Tree → Prop where
  | init : Reachable initTree
  | insertStep : ∀ t key value fuel t', Reachable t →
      BLinkTree.insert t key value fuel = some t' → Reachable t'
  | updateStep : ∀ t key value fuel r, Reachable t →
      BLinkTree.update t key value fuel = some r → Reachable r.2
  | removeStep : ∀ t key fuel r, Reachable t →
      BLinkTree.remove t key fuel = some r → Reachable r.2

/-- The key sequence `k[0..cnt)` of an internal node. -/
def InternalNode.keys (n : HNode) : List Nat := n.entries.map Prod.fst

/-- The child sequence `p[0..cnt]` of an internal node: the `cnt` left-child
slots followed by the trailing child. -/
def InternalNode.children (n : HNode) : List Nat := n.entries.map Prod.snd ++ [n.last]

/-- A concrete full internal node used as a test vector: level 1, keys
`10, 20, ..., 290` (29 of them, so the node is full), child ids `0..29`,
`high_key` 300. -/
def fullInternal29 : HNode :=
  ⟨1, 300, none, (List.range 29).map (fun i => (10 * (i + 1), i)), 29⟩

/-- A concrete full leaf used as a test vector: keys `1..30` with values
`100..129`, `high_key` 30. -/
def fullLeaf30 : HNode :=
  ⟨0, 30, none, (List.range 30).map (fun i => (i + 1, 100 + i)), 0⟩

/-! ### Sequential well-formedness invariant

Ghost predicates used to verify the insert-then-lookup law (claim C2).  A
sequentially reachable heap decomposes into one sibling chain of node ids
per level, kept bottom (leaf) first in a list of chains.  Within a chain,
high keys are weakly monotone, every node's keys are sorted and bounded by
its own high key, and a node's keys dominate its chain predecessor's high
key.  One level up, each parent entry `(k_i, p_i)` guards the child that
sits one slot to its right, and the guard condition is exact: the chain
predecessor of the guarded child carries precisely the guard key as its
high key.  This membership-style invariant is stable under the scrambling
of parent entry order that duplicate separators cause (a split child may be
re-registered left of its chain position), while still pinning the descent:
routing never lands strictly right of the first chain node able to cover
the key, and the rightward sibling hops finish the job. -/

/-- The node stored at heap index `i` (out-of-range reads yield the default
node; executed paths never follow a dangling pointer). -/
def nd (h : List HNode) (i : Nat) : HNode := h.getD i default

/-- The high key of the node at heap index `i`. -/
def highOf (h : List HNode) (i : Nat) : Nat := (nd h i).high_key

/-- The sibling pointer of the node at heap index `i`. -/
def sibOf (h : List HNode) (i : Nat) : Option Nat := (nd h i).sibling

/-- The key sequence of the node at heap index `i`. -/
def keysOf (h : List HNode) (i : Nat) : List Nat := (nd h i).entries.map Prod.fst

/-- The adjacent pairs of a chain: `(C[j], C[j+1])` for each `j`. -/
def adjPairs (C : List Nat) : List (Nat × Nat) := C.zip C.tail

/-- The guarded pairs of an internal node: key `k_i` paired with the child
one slot to its RIGHT (`p_{i+1}`, or the trailing child after the last
key). -/
def gpairs (n : HNode) : List (Nat × Nat) :=
  (n.entries.map Prod.fst).zip ((n.entries.map Prod.snd).drop 1 ++ [n.last])

/-- `x` occurs in chain `D` with a chain predecessor whose high key is
`v`. -/
def PredHigh (h : List HNode) (D : List Nat) (x v : Nat) : Prop :=
  ∃ p, (p, x) ∈ adjPairs D ∧ highOf h p = v

/-- Node-local invariant: keys weakly sorted and bounded by the high key. -/
def NodeOk (n : HNode) : Prop :=
  List.Pairwise (· ≤ ·) (n.entries.map Prod.fst) ∧
  ∀ k ∈ n.entries.map Prod.fst, k ≤ n.high_key

/-- `C` is a well-formed sibling chain of level-`lev` nodes: linked in
order, terminated, high keys weakly monotone, every node's keys above the
predecessor's high key, every node locally well formed and in bounds. -/
def ChainOk (h : List HNode) (lev : Nat) (C : List Nat) : Prop :=
  C ≠ [] ∧
  sibOf h (C.getLastD 0) = none ∧
  (∀ pr ∈ adjPairs C,
    sibOf h pr.1 = some pr.2 ∧
    highOf h pr.1 ≤ highOf h pr.2 ∧
    ∀ k ∈ keysOf h pr.2, highOf h pr.1 ≤ k) ∧
  ∀ x ∈ C, (nd h x).level = lev ∧ NodeOk (nd h x) ∧ x < h.length

/-- Parent-node invariant over child chain `D` with floor `f`: the node's
first child is the chain head (no floor) or is guarded by the floor, and
every guarded pair's child has chain-predecessor high key exactly the
guard. -/
def ParentOk (h : List HNode) (D : List Nat) (f : Option Nat) (n : HNode) : Prop :=
  (match f with
   | none => InternalNode.leftmost_ptr n = D.headD 0
   | some v => PredHigh h D (InternalNode.leftmost_ptr n) v) ∧
  ∀ pr ∈ gpairs n, PredHigh h D pr.2 pr.1

/-- Threads the floor along a parent chain: the first parent keeps floor
`f`, each later parent is floored by its chain predecessor's high key. -/
def ParentsOk (h : List HNode) (D : List Nat) : Option Nat → List Nat → Prop
  | _, [] => True
  | f, p :: ps => ParentOk h D f (nd h p) ∧ ParentsOk h D (some (highOf h p)) ps

/-- All level chains from level `lev` upward, leaf side first: each chain is
well formed at its level and each parent chain is glued onto the chain
directly below it. -/
def LevelsUp (h : List HNode) : Nat → List (List Nat) → Prop
  | _, [] => False
  | lev, [C] => ChainOk h lev C
  | lev, D :: C :: rest =>
      ChainOk h lev D ∧ ParentsOk h D none C ∧ LevelsUp h (lev + 1) (C :: rest)

/-- Full-tree invariant: a bottom-first list of level chains whose topmost
chain is the root alone and whose ids never alias. -/
def TreeInv (h : List HNode) (root : Nat) (ls : List (List Nat)) : Prop :=
  LevelsUp h 0 ls ∧ ls.getLast? = some [root] ∧ ls.flatten.Nodup

/-- A tree admits the sequential well-formedness decomposition. -/
def SeqInv (t : Tree) : Prop := ∃ ls, TreeInv t.heap t.root ls

/-- Walk rightward from `x` along the remaining chain `rest` while the
current high key is below `key`: the node where the sibling-hop loops
stop. -/
def targetFrom (h : List HNode) (key : Nat) : Nat → List Nat → Nat
  | x, [] => x
  | x, y :: rest => if highOf h x < key then targetFrom h key y rest else x

/-- The first node of chain `C` whose high key reaches `key` (the last node
when none does): where a sequential descent settles at `C`'s level. -/
def chainTarget (h : List HNode) (key : Nat) (C : List Nat) : Nat :=
  targetFrom h key (C.headD 0) C.tail

/-- `x` occurs in chain `C` with every node strictly before it unable to
cover `key`. -/
def BeforeOk (h : List HNode) (key : Nat) (C : List Nat) (x : Nat) : Prop :=
  ∃ A B, C = A ++ x :: B ∧ ∀ a ∈ A, highOf h a < key

/-! ## Theorems -/

section Lemmas

/-- The leaf lowerbound position never exceeds the entry count. -/
theorem leaf_lowerbound_le_length (key : Nat) (l : List (Nat × Nat)) :
    LeafNode.lowerbound_linear key l ≤ l.length := by
  induction l with
  | nil => simp [LeafNode.lowerbound_linear]
  | cons e rest ih =>
      simp only [LeafNode.lowerbound_linear, List.length_cons]
      split <;> omega

/-- Every entry strictly before the leaf lowerbound position has key
strictly below the probe key. -/
theorem leaf_lowerbound_lt_key (key : Nat) (l : List (Nat × Nat)) :
    ∀ j, j < LeafNode.lowerbound_linear key l → (l.getD j (0, 0)).1 < key := by
  induction l with
  | nil => simp [LeafNode.lowerbound_linear]
  | cons e rest ih =>
      intro j hj
      simp only [LeafNode.lowerbound_linear] at hj
      by_cases hke : key ≤ e.1
      · simp [hke] at hj
      · simp only [hke, if_false] at hj
        cases j with
        | zero => simpa using Nat.lt_of_not_le hke
        | succ j =>
            simpa using ih j (by omega)

/-- The internal lowerbound position never exceeds the entry count. -/
theorem internal_lowerbound_le_length (key : Nat) (l : List (Nat × Nat)) :
    InternalNode.lowerbound_linear key l ≤ l.length := by
  induction l with
  | nil => simp [InternalNode.lowerbound_linear]
  | cons e rest ih =>
      simp only [InternalNode.lowerbound_linear, List.length_cons]
      split <;> omega

/-- Mapping `Prod.fst` over the entry list produced by the internal insert in
its in-range case inserts the new key at the lowerbound position of the key
sequence. -/
theorem internal_insert_keys_aux (key c : Nat) :
    ∀ (l : List (Nat × Nat)) (pos : Nat) (h : pos < l.length),
      List.map Prod.fst
          (l.take pos ++ (key, (l.get ⟨pos, h⟩).2) :: ((l.get ⟨pos, h⟩).1, c) ::
            l.drop (pos + 1)) =
        (l.map Prod.fst).take pos ++ key :: (l.map Prod.fst).drop pos := by
  intro l
  induction l with
  | nil => intro pos h; simp at h
  | cons e rest ih =>
      intro pos h
      cases pos with
      | zero => simp
      | succ pos =>
          simp only [List.take_succ_cons, List.map_cons, List.cons_append,
            List.drop_succ_cons, List.get_cons_succ]
          rw [ih pos (by simpa using h)]

/-- Appending the trailing child, the entry list produced by the internal
insert in its in-range case inserts the new child at position `pos + 1` of
the child sequence. -/
theorem internal_insert_children_aux (key c last : Nat) :
    ∀ (l : List (Nat × Nat)) (pos : Nat) (h : pos < l.length),
      List.map Prod.snd
          (l.take pos ++ (key, (l.get ⟨pos, h⟩).2) :: ((l.get ⟨pos, h⟩).1, c) ::
            l.drop (pos + 1)) ++ [last] =
        (l.map Prod.snd ++ [last]).take (pos + 1) ++
          c :: (l.map Prod.snd ++ [last]).drop (pos + 1) := by
  intro l
  induction l with
  | nil => intro pos h; simp at h
  | cons e rest ih =>
      intro pos h
      cases pos with
      | zero => simp
      | succ pos =>
          simp only [List.take_succ_cons, List.map_cons, List.cons_append,
            List.drop_succ_cons, List.get_cons_succ]
          rw [ih pos (by simpa using h)]

/-- The leaf in-place update preserves the key sequence. -/
theorem update_linear_keys (key value : Nat) (l : List (Nat × Nat)) :
    (LeafNode.update_linear key value l).2.map Prod.fst = l.map Prod.fst := by
  induction l with
  | nil => simp [LeafNode.update_linear]
  | cons e rest ih =>
      simp only [LeafNode.update_linear]
      by_cases h : key = e.1
      · simp [h]
      · simp [h, ih]

/-- When entry `i` is the first entry keyed `key`, the leaf in-place update
returns true and overwrites exactly that entry's value. -/
theorem update_linear_found (key value : Nat) :
    ∀ (l : List (Nat × Nat)) (i : Nat), i < l.length →
      (l.getD i (0, 0)).1 = key → (∀ j, j < i → (l.getD j (0, 0)).1 ≠ key) →
      LeafNode.update_linear key value l = (true, l.set i (key, value)) := by
  intro l
  induction l with
  | nil => intro i hi; simp at hi
  | cons e rest ih =>
      intro i hi hk hprev
      cases i with
      | zero =>
          simp only [List.getD_cons_zero] at hk
          subst hk
          simp [LeafNode.update_linear]
      | succ i =>
          have hne : e.1 ≠ key := by simpa using hprev 0 (Nat.succ_pos i)
          have : key = e.1 ↔ False := by
            constructor
            · intro h; exact hne h.symm
            · intro h; exact h.elim
          simp only [LeafNode.update_linear, this, if_false, List.set_cons_succ]
          rw [ih i (by simpa using hi) (by simpa using hk)
            (fun j hj => by simpa using hprev (j + 1) (by omega))]

/-- When no entry is keyed `key`, the leaf in-place update returns false and
leaves the entry list unchanged. -/
theorem update_linear_not_found (key value : Nat) :
    ∀ l : List (Nat × Nat), (∀ e ∈ l, e.1 ≠ key) →
      LeafNode.update_linear key value l = (false, l) := by
  intro l
  induction l with
  | nil => intro _; simp [LeafNode.update_linear]
  | cons e rest ih =>
      intro h
      have hne : key = e.1 ↔ False := by
        constructor
        · intro hh; exact (h e (List.mem_cons_self e rest)) hh.symm
        · intro hh; exact hh.elim
      simp only [LeafNode.update_linear, hne, if_false]
      rw [ih (fun x hx => h x (List.mem_cons_of_mem e hx))]

/-- The leaf insert always produces the take/insert/drop shape at the
lowerbound position (the source's `cnt == 0` special case produces the same
list). -/
theorem leaf_insert_entries (l : HNode) (key value : Nat) :
    (LeafNode.insert l key value).entries =
      l.entries.take (LeafNode.find_lowerbound l key) ++
        (key, value) :: l.entries.drop (LeafNode.find_lowerbound l key) := by
  unfold LeafNode.insert
  by_cases h : l.entries.length ≠ 0
  · simp [h]
  · have : l.entries = [] := List.length_eq_zero.mp (by omega)
    simp [h, this, LeafNode.find_lowerbound, LeafNode.lowerbound_linear]

/-- Searching the freshly inserted list finds the new entry: everything
before the lowerbound position has a key strictly below `key`. -/
theorem find_linear_insert (key value : Nat) (l : List (Nat × Nat)) :
    LeafNode.find_linear key
      (l.take (LeafNode.lowerbound_linear key l) ++
        (key, value) :: l.drop (LeafNode.lowerbound_linear key l)) = value := by
  induction l with
  | nil => simp [LeafNode.lowerbound_linear, LeafNode.find_linear]
  | cons e rest ih =>
      by_cases h : key ≤ e.1
      · simp [LeafNode.lowerbound_linear, h, LeafNode.find_linear]
      · have hne : key = e.1 ↔ False := by
          constructor
          · intro hh; omega
          · intro hh; exact hh.elim
        simp only [LeafNode.lowerbound_linear, h, if_false, List.take_succ_cons,
          List.drop_succ_cons, List.cons_append]
        simp only [LeafNode.find_linear, hne, if_false]
        exact ih

/-- Locating `key` in the freshly inserted list gives exactly the lowerbound
position. -/
theorem find_pos_linear_insert (key value : Nat) (l : List (Nat × Nat)) :
    LeafNode.find_pos_linear key
      (l.take (LeafNode.lowerbound_linear key l) ++
        (key, value) :: l.drop (LeafNode.lowerbound_linear key l)) =
      some (LeafNode.lowerbound_linear key l) := by
  induction l with
  | nil => simp [LeafNode.lowerbound_linear, LeafNode.find_pos_linear]
  | cons e rest ih =>
      by_cases h : key ≤ e.1
      · simp [LeafNode.lowerbound_linear, h, LeafNode.find_pos_linear]
      · have hne : key = e.1 ↔ False := by
          constructor
          · intro hh; omega
          · intro hh; exact hh.elim
        simp only [LeafNode.lowerbound_linear, h, if_false, List.take_succ_cons,
          List.drop_succ_cons, List.cons_append]
        simp only [LeafNode.find_pos_linear, hne, if_false, ih]
        rfl

end Lemmas

/-- C3: for every full leaf with sorted entries, `LeafNode::split` promotes
`entry[half - 1].key` where `half = cnt / 2`; the new right leaf holds exactly
`entry[half..cnt)` (so `cnt - half` entries) together with the old sibling,
old `high_key` and the level, and the updated self keeps `entry[0..half)` with
`high_key` equal to the promoted key and sibling pointing at the new leaf. -/
theorem leaf_split_spec (l : HNode) (newId : Nat)
    (hFull : l.entries.length = cardinality)
    (hSorted : List.Sorted (· ≤ ·) (l.entries.map Prod.fst)) :
    (LeafNode.split l newId).2.2 = (l.entries.getD (l.entries.length / 2 - 1) (0, 0)).1 ∧
    (LeafNode.split l newId).2.1.entries = l.entries.drop (l.entries.length / 2) ∧
    (LeafNode.split l newId).2.1.entries.length = l.entries.length - l.entries.length / 2 ∧
    (LeafNode.split l newId).2.1.sibling = l.sibling ∧
    (LeafNode.split l newId).2.1.high_key = l.high_key ∧
    (LeafNode.split l newId).2.1.level = l.level ∧
    (LeafNode.split l newId).1.entries = l.entries.take (l.entries.length / 2) ∧
    (LeafNode.split l newId).1.entries.length = l.entries.length / 2 ∧
    (LeafNode.split l newId).1.high_key = (l.entries.getD (l.entries.length / 2 - 1) (0, 0)).1 ∧
    (LeafNode.split l newId).1.sibling = some newId ∧
    (LeafNode.split l newId).1.level = l.level := by
  have hdiv : l.entries.length / 2 ≤ l.entries.length := Nat.div_le_self _ _
  unfold LeafNode.split
  refine ⟨rfl, rfl, ?_, rfl, rfl, rfl, rfl, ?_, rfl, rfl, rfl⟩
  · simp
  · simp [List.length_take]
    omega

/-- Witness for C3 at the concrete full sorted leaf `fullLeaf30`. -/
theorem leaf_split_spec_witness :
    (LeafNode.split fullLeaf30 7).2.2 =
      (fullLeaf30.entries.getD (fullLeaf30.entries.length / 2 - 1) (0, 0)).1 :=
  (leaf_split_spec fullLeaf30 7 (by decide) (by decide)).1

/-- C4: for every non-full internal node, inserting separator `key` with
right child `child` at the lowerbound position `i` produces the key sequence
with `key` inserted at index `i` and the child sequence with `child` inserted
at index `i + 1` — so the slot left of `key` still holds the pre-state child
of slot `i` and `child` sits immediately to the right of `key`; `cnt` grows
by one and `high_key` is raised exactly when `key` exceeds it. -/
theorem internal_insert_spec (n : HNode) (key child : Nat)
    (hNotFull : InternalNode.is_full n = false) :
    InternalNode.keys (InternalNode.insert n key child) =
        (InternalNode.keys n).take (InternalNode.find_lowerbound n key)
          ++ key :: (InternalNode.keys n).drop (InternalNode.find_lowerbound n key) ∧
    InternalNode.children (InternalNode.insert n key child) =
        (InternalNode.children n).take (InternalNode.find_lowerbound n key + 1)
          ++ child :: (InternalNode.children n).drop (InternalNode.find_lowerbound n key + 1) ∧
    (InternalNode.insert n key child).entries.length = n.entries.length + 1 ∧
    (InternalNode.insert n key child).high_key =
        (if key > n.high_key then key else n.high_key) ∧
    (InternalNode.insert n key child).level = n.level ∧
    (InternalNode.insert n key child).sibling = n.sibling := by
  have hle : InternalNode.find_lowerbound n key ≤ n.entries.length :=
    internal_lowerbound_le_length key n.entries
  by_cases h : InternalNode.find_lowerbound n key < n.entries.length
  · have hrw : InternalNode.insert n key child =
        { n with
          high_key := if key > n.high_key then key else n.high_key,
          entries := n.entries.take (InternalNode.find_lowerbound n key) ++
            (key, (n.entries.get ⟨InternalNode.find_lowerbound n key, h⟩).2) ::
            ((n.entries.get ⟨InternalNode.find_lowerbound n key, h⟩).1, child) ::
            n.entries.drop (InternalNode.find_lowerbound n key + 1) } := by
      simp only [InternalNode.insert]
      rw [dif_pos h]
    rw [hrw]
    refine ⟨?_, ?_, ?_, rfl, rfl, rfl⟩
    · exact internal_insert_keys_aux key child n.entries _ h
    · exact internal_insert_children_aux key child n.last n.entries _ h
    · simp
      omega
  · have hpos : InternalNode.find_lowerbound n key = n.entries.length := by omega
    have hrw : InternalNode.insert n key child =
        { n with
          high_key := if key > n.high_key then key else n.high_key,
          entries := n.entries ++ [(key, n.last)],
          last := child } := by
      simp only [InternalNode.insert]
      rw [dif_neg h]
    rw [hrw]
    refine ⟨?_, ?_, ?_, rfl, rfl, rfl⟩
    · simp only [InternalNode.keys, List.map_append, List.map_cons, List.map_nil]
      rw [hpos, show n.entries.length = (n.entries.map Prod.fst).length by simp,
        List.take_length, List.drop_length]
    · have : (n.entries.map Prod.snd ++ [n.last]).length =
          n.entries.length + 1 := by simp
      simp only [InternalNode.children, List.map_append, List.map_cons]
      rw [hpos, show n.entries.length + 1 = (n.entries.map Prod.snd ++ [n.last]).length
            from this.symm,
        List.take_length, List.drop_length]
      simp
    · simp

/-- Witness for C4 at a concrete non-full internal node: inserting separator
15 with right child 9 between the entries keyed 10 and 20. -/
theorem internal_insert_spec_witness :
    InternalNode.keys (InternalNode.insert ⟨1, 50, none, [(10, 0), (20, 1), (30, 2)], 3⟩ 15 9) =
        (InternalNode.keys ⟨1, 50, none, [(10, 0), (20, 1), (30, 2)], 3⟩).take 1
          ++ 15 :: (InternalNode.keys ⟨1, 50, none, [(10, 0), (20, 1), (30, 2)], 3⟩).drop 1 ∧
    InternalNode.children (InternalNode.insert ⟨1, 50, none, [(10, 0), (20, 1), (30, 2)], 3⟩ 15 9) =
        (InternalNode.children ⟨1, 50, none, [(10, 0), (20, 1), (30, 2)], 3⟩).take 2
          ++ 9 :: (InternalNode.children ⟨1, 50, none, [(10, 0), (20, 1), (30, 2)], 3⟩).drop 2 :=
  ⟨(internal_insert_spec ⟨1, 50, none, [(10, 0), (20, 1), (30, 2)], 3⟩ 15 9 (by decide)).1,
   (internal_insert_spec ⟨1, 50, none, [(10, 0), (20, 1), (30, 2)], 3⟩ 15 9 (by decide)).2.1⟩

/-- C5, counterexample.  The claim states that after an internal split the
right node's leftmost child is the pre-state child `p[half]`.  On the concrete
full internal node `fullInternal29` (29 keys, children `0..29`,
`half = 29 - 29/2 = 15`) the code's `memcpy` starts at `new_node->entry[0]`
and overwrites the slot the constructor had just filled with
`entry[half].value`, so the right node's leftmost child is the pre-state child
`p[half + 1] = 16`, not `p[half] = 15`. -/
theorem internal_split_counterexample :
    InternalNode.is_full fullInternal29 = true ∧
    (InternalNode.children fullInternal29).getD 15 0 = 15 ∧
    InternalNode.leftmost_ptr (InternalNode.split fullInternal29 77).2.1 = 16 ∧
    ¬ InternalNode.leftmost_ptr (InternalNode.split fullInternal29 77).2.1 =
        (InternalNode.children fullInternal29).getD 15 0 := by
  refine ⟨by decide, by decide, by decide, by decide⟩

/-- C5, amended: for every full internal node, `split` promotes
`entry[half].key` with `half = cnt - cnt/2`, and that key is stored in neither
half; the right node holds keys `k[half+1..cnt)` with children
`p[half+1..cnt]` — its leftmost child is the pre-state `p[half + 1]`, NOT
`p[half]` — plus the old sibling, `high_key` and level; self keeps keys
`k[0..half)` with children `p[0..half]`, `cnt = half`,
`high_key = k[half]` and sibling pointing at the new right node. -/
theorem internal_split_spec_amended (n : HNode) (newId : Nat)
    (hFull : InternalNode.is_full n = true) :
    (InternalNode.split n newId).2.2 =
        (InternalNode.keys n).getD (n.entries.length - n.entries.length / 2) 0 ∧
    InternalNode.keys (InternalNode.split n newId).1 =
        (InternalNode.keys n).take (n.entries.length - n.entries.length / 2) ∧
    InternalNode.keys (InternalNode.split n newId).2.1 =
        (InternalNode.keys n).drop (n.entries.length - n.entries.length / 2 + 1) ∧
    InternalNode.children (InternalNode.split n newId).1 =
        (InternalNode.children n).take (n.entries.length - n.entries.length / 2 + 1) ∧
    InternalNode.children (InternalNode.split n newId).2.1 =
        (InternalNode.children n).drop (n.entries.length - n.entries.length / 2 + 1) ∧
    (InternalNode.split n newId).1.entries.length =
        n.entries.length - n.entries.length / 2 ∧
    (InternalNode.split n newId).2.1.entries.length =
        n.entries.length - (n.entries.length - n.entries.length / 2) - 1 ∧
    (InternalNode.split n newId).1.high_key =
        (InternalNode.keys n).getD (n.entries.length - n.entries.length / 2) 0 ∧
    (InternalNode.split n newId).1.sibling = some newId ∧
    (InternalNode.split n newId).1.level = n.level ∧
    (InternalNode.split n newId).2.1.sibling = n.sibling ∧
    (InternalNode.split n newId).2.1.high_key = n.high_key ∧
    (InternalNode.split n newId).2.1.level = n.level := by
  have hcnt : n.entries.length = cardinality - 1 := by
    have h2 := hFull
    unfold InternalNode.is_full at h2
    simpa using h2
  have hhalf : n.entries.length - n.entries.length / 2 < n.entries.length := by
    rw [hcnt]; decide
  have hgetD : (InternalNode.keys n).getD (n.entries.length - n.entries.length / 2) 0 =
      (n.entries.getD (n.entries.length - n.entries.length / 2) (0, 0)).1 := by
    rw [List.getD_eq_getElem _ _ (by simpa [InternalNode.keys] using hhalf),
      List.getD_eq_getElem _ _ hhalf]
    simp [InternalNode.keys]
  unfold InternalNode.split
  refine ⟨hgetD.symm, ?_, ?_, ?_, ?_, ?_, ?_, hgetD.symm, rfl, rfl, rfl, rfl, rfl⟩
  · simp [InternalNode.keys, List.map_take]
  · simp [InternalNode.keys, List.map_drop]
  · -- children of the left half: the trailing child slot `entry[half].value`
    -- stays live, so the child list is `p[0..half]`.
    simp only [InternalNode.children, List.map_take]
    rw [List.take_append_eq_append_take,
      show n.entries.length - n.entries.length / 2 + 1 -
          (n.entries.map Prod.snd).length = 0 by simp; omega,
      List.take_zero, List.append_nil, List.take_succ]
    congr 1
    rw [List.getD_eq_getElem _ _ hhalf]
    simp [List.getElem?_map, List.getElem?_eq_getElem hhalf]
  · simp only [InternalNode.children, List.map_drop]
    rw [List.drop_append_eq_append_drop,
      show n.entries.length - n.entries.length / 2 + 1 -
          (n.entries.map Prod.snd).length = 0 by simp; omega,
      List.drop_zero]
  · simp
  · simp; omega

/-- Witness for C5's amended theorem at the concrete node `fullInternal29`:
the promoted separator is key 160 (`k[15]`) and the right half's leftmost
child is 16. -/
theorem internal_split_spec_amended_witness :
    (InternalNode.split fullInternal29 77).2.2 =
        (InternalNode.keys fullInternal29).getD
          (fullInternal29.entries.length - fullInternal29.entries.length / 2) 0 ∧
    InternalNode.children (InternalNode.split fullInternal29 77).2.1 =
        (InternalNode.children fullInternal29).drop
          (fullInternal29.entries.length - fullInternal29.entries.length / 2 + 1) :=
  ⟨(internal_split_spec_amended fullInternal29 77 (by decide)).1,
   (internal_split_spec_amended fullInternal29 77 (by decide)).2.2.2.2.1⟩

/-- C8: `LeafNode::update(k, v)` only ever touches the value field of the
first entry keyed `k`: the key sequence, `high_key`, sibling and level are
always preserved; when entry `i` is the first entry keyed `k` the result is
`true` with exactly entry `i` overwritten by `(k, v)` (so count and all other
entries are unchanged), and when no entry is keyed `k` the result is `false`
with the leaf completely unchanged. -/
theorem leaf_update_frame (n : HNode) (key value : Nat) :
    ((LeafNode.update n key value).2.high_key = n.high_key ∧
     (LeafNode.update n key value).2.sibling = n.sibling ∧
     (LeafNode.update n key value).2.level = n.level ∧
     (LeafNode.update n key value).2.entries.map Prod.fst = n.entries.map Prod.fst ∧
     (LeafNode.update n key value).2.entries.length = n.entries.length) ∧
    (∀ i, i < n.entries.length → (n.entries.getD i (0, 0)).1 = key →
        (∀ j, j < i → (n.entries.getD j (0, 0)).1 ≠ key) →
        LeafNode.update n key value =
          (true, { n with entries := n.entries.set i (key, value) })) ∧
    ((∀ e ∈ n.entries, e.1 ≠ key) → LeafNode.update n key value = (false, n)) := by
  refine ⟨⟨rfl, rfl, rfl, update_linear_keys key value n.entries, ?_⟩, ?_, ?_⟩
  · have h := update_linear_keys key value n.entries
    have : ((LeafNode.update_linear key value n.entries).2.map Prod.fst).length =
        (n.entries.map Prod.fst).length := by rw [h]
    simpa [LeafNode.update] using this
  · intro i hi hk hprev
    unfold LeafNode.update
    rw [update_linear_found key value n.entries i hi hk hprev]
  · intro h
    unfold LeafNode.update
    rw [update_linear_not_found key value n.entries h]

/-- Witness for C8 at a concrete leaf, exercising both the found branch
(first of the two entries keyed 5 is overwritten) and the not-found branch. -/
theorem leaf_update_frame_witness :
    LeafNode.update ⟨0, 9, none, [(3, 30), (5, 50), (5, 51)], 0⟩ 5 77 =
      (true, { (⟨0, 9, none, [(3, 30), (5, 50), (5, 51)], 0⟩ : HNode) with
                entries := [(3, 30), (5, 50), (5, 51)].set 1 (5, 77) }) ∧
    LeafNode.update ⟨0, 9, none, [(3, 30), (5, 50), (5, 51)], 0⟩ 4 77 =
      (false, ⟨0, 9, none, [(3, 30), (5, 50), (5, 51)], 0⟩) :=
  ⟨(leaf_update_frame ⟨0, 9, none, [(3, 30), (5, 50), (5, 51)], 0⟩ 5 77).2.1 1
      (by decide) (by decide) (fun j hj => by interval_cases j <;> decide),
   (leaf_update_frame ⟨0, 9, none, [(3, 30), (5, 50), (5, 51)], 0⟩ 4 77).2.2
      (by decide)⟩

/-- C9: inserting `key` into a leaf always places the new entry at the
lowerbound position, which lies strictly before every existing entry keyed
`key` (everything before it has a strictly smaller key); consequently
`find` returns the value of the most recently inserted duplicate, and
`remove` deletes exactly the most recently inserted duplicate — one entry per
call — restoring the previous entry list. -/
theorem leaf_duplicate_discipline (l : HNode) (key value : Nat) :
    (LeafNode.insert l key value).entries =
        l.entries.take (LeafNode.find_lowerbound l key) ++
          (key, value) :: l.entries.drop (LeafNode.find_lowerbound l key) ∧
    (∀ j, j < LeafNode.find_lowerbound l key → (l.entries.getD j (0, 0)).1 ≠ key) ∧
    LeafNode.find (LeafNode.insert l key value) key = value ∧
    (LeafNode.remove (LeafNode.insert l key value) key).1 = true ∧
    (LeafNode.remove (LeafNode.insert l key value) key).2.entries = l.entries := by
  have hins := leaf_insert_entries l key value
  have hle : LeafNode.find_lowerbound l key ≤ l.entries.length :=
    leaf_lowerbound_le_length key l.entries
  have htake : (l.entries.take (LeafNode.find_lowerbound l key)).length =
      LeafNode.find_lowerbound l key := by
    simp [List.length_take]
    omega
  have hins2 : (LeafNode.insert l key value).entries =
      l.entries.take (LeafNode.lowerbound_linear key l.entries) ++
        (key, value) :: l.entries.drop (LeafNode.lowerbound_linear key l.entries) := hins
  have htake2 : (l.entries.take (LeafNode.lowerbound_linear key l.entries)).length =
      LeafNode.lowerbound_linear key l.entries := htake
  have hlen : (l.entries.take (LeafNode.lowerbound_linear key l.entries) ++
      (key, value) :: l.entries.drop (LeafNode.lowerbound_linear key l.entries)).length ≠ 0 := by
    simp
  refine ⟨hins, ?_, ?_, ?_, ?_⟩
  · intro j hj
    exact Nat.ne_of_lt (leaf_lowerbound_lt_key key l.entries j hj)
  · unfold LeafNode.find
    rw [hins2]
    exact find_linear_insert key value l.entries
  · unfold LeafNode.remove
    rw [hins2, if_pos hlen, find_pos_linear_insert key value l.entries]
  · unfold LeafNode.remove
    rw [hins2, if_pos hlen, find_pos_linear_insert key value l.entries]
    simp only
    rw [List.take_append_eq_append_take, List.drop_append_eq_append_drop, htake2,
      Nat.sub_self, List.take_zero, List.append_nil, List.take_take, Nat.min_self,
      List.drop_eq_nil_of_le (by rw [htake2]; omega),
      show LeafNode.lowerbound_linear key l.entries + 1 -
          LeafNode.lowerbound_linear key l.entries = 1 by omega,
      List.nil_append, List.drop_one, List.tail_cons, List.take_append_drop]

section EngineAgnostic

/-- When the pending separator differs from the promoted split key, the two
routing comparisons of the two source files agree. -/
theorem splitRouteLeft_eq_of_ne (e e' : Bool) (a b : Nat) (h : a ≠ b) :
    splitRouteLeft e a b = splitRouteLeft e' a b := by
  cases e <;> cases e' <;> simp [splitRouteLeft, decide_eq_decide] <;> omega

/-- If the `node.h` engine's backtrack loop completes without ever hitting an
equal-separator internal split, the `part_000` engine's loop produces the
identical tree (and also reports no equal-separator event). -/
theorem backtrackLoop_engine_agnostic :
    ∀ (rstack : List Nat) (t : Tree) (fuel leftId rightId split_key : Nat) (tr : Tree),
      backtrackLoop false t fuel rstack leftId rightId split_key = some (tr, false) →
      backtrackLoop true t fuel rstack leftId rightId split_key = some (tr, false) := by
  intro rstack
  induction rstack with
  | nil =>
      intro t fuel leftId rightId split_key tr h
      simp [backtrackLoop] at h
  | cons parent₀ rest ih =>
      intro t fuel leftId rightId split_key tr h
      cases hc : chase t split_key fuel parent₀ with
      | none =>
          simp only [backtrackLoop, hc, Option.bind_eq_bind, Option.none_bind] at h
          exact absurd h (by simp)
      | some parent =>
          simp only [backtrackLoop, hc, Option.bind_eq_bind, Option.some_bind] at h ⊢
          by_cases hfull : InternalNode.is_full (t.getNode parent) = true
          · rw [if_neg (not_not_intro hfull)] at h ⊢
            by_cases he : split_key = (InternalNode.split (t.getNode parent) t.heap.length).2.2
            · -- the pending separator equals the promoted split key, so the
              -- equal-separator event fires and the false-flag hypothesis is absurd
              exfalso
              cases rest with
              | nil =>
                  rw [he] at h
                  simp only [List.isEmpty_nil, if_true, Option.bind_eq_bind] at h
                  rcases ite_eq_iff.mp h with ⟨hC, hres⟩ | ⟨hC, hres⟩
                  · rw [Option.pure_def, Option.some.injEq] at hres
                    exact absurd (congrArg Prod.snd hres) (by simp)
                  · obtain ⟨tu, hXtu, hpair⟩ := Option.bind_eq_some.mp hres
                    rw [Option.pure_def, Option.some.injEq] at hpair
                    exact absurd (congrArg Prod.snd hpair) (by simp)
              | cons a tl =>
                  rw [he] at h
                  simp only [List.isEmpty_cons, Bool.false_eq_true, if_false,
                    Option.bind_eq_bind] at h
                  obtain ⟨r, hrec, hpair⟩ := Option.bind_eq_some.mp h
                  simp only [Option.pure_def, Option.some.injEq, Prod.mk.injEq,
                    Bool.or_eq_false_iff] at hpair
                  exact absurd hpair.2.2 (by simp)
            · -- the separator differs from the promoted split key, so the two
              -- engines route identically and the remaining text is shared
              rw [splitRouteLeft_eq_of_ne true false split_key _ he]
              cases rest with
              | nil => exact h
              | cons a tl =>
                  simp only [List.isEmpty_cons, Bool.false_eq_true, if_false,
                    Option.bind_eq_bind] at h ⊢
                  obtain ⟨r, hrec, hpair⟩ := Option.bind_eq_some.mp h
                  simp only [Option.pure_def, Option.some.injEq, Prod.mk.injEq,
                    Bool.or_eq_false_iff] at hpair
                  obtain ⟨htr, hflag, hev⟩ := hpair
                  have hr2 : r = (tr, false) := Prod.ext htr hflag
                  rw [hr2] at hrec
                  refine Option.bind_eq_some.mpr ⟨(tr, false), ih _ _ _ _ _ _ hrec, ?_⟩
                  simpa using hev
          · rw [if_pos hfull] at h ⊢
            exact h

/-- Engine agnosticism lifted to the whole leaf-split propagation routine. -/
theorem backtrack_ins_engine_agnostic (t : Tree) (fuel : Nat) (stack : List Nat)
    (leafId key value : Nat) (tr : Tree)
    (h : backtrack_insertion_split_key false t fuel stack leafId key value =
      some (tr, false)) :
    backtrack_insertion_split_key true t fuel stack leafId key value =
      some (tr, false) := by
  unfold backtrack_insertion_split_key at h ⊢
  cases stack with
  | nil => exact h
  | cons a tl =>
      simp only [List.isEmpty_cons, Bool.false_eq_true, if_false] at h ⊢
      exact backtrackLoop_engine_agnostic _ _ _ _ _ _ _ h

/-- Engine agnosticism for a whole insert call. -/
theorem insertCore_engine_agnostic (t : Tree) (key value fuel : Nat) (tr : Tree)
    (h : insertCore false t key value fuel = some (tr, false)) :
    insertCore true t key value fuel = some (tr, false) := by
  simp only [insertCore] at h ⊢
  cases ht : traverse_to_leafnode t key fuel with
  | none =>
      rw [ht] at h
      simp at h
  | some sl =>
      rw [ht] at h
      simp only [Option.bind_eq_bind, Option.some_bind] at h ⊢
      by_cases hfull : LeafNode.is_full (t.getNode sl.2) = true
      · rw [if_neg (not_not_intro hfull)] at h ⊢
        exact backtrack_ins_engine_agnostic _ _ _ _ _ _ _ h
      · rw [if_pos hfull] at h ⊢
        exact h

/-- Engine agnosticism for a single operation step. -/
theorem stepCore_engine_agnostic (fuel : Nat) (t : Tree) (op : Op)
    (tr : Tree) (r : Nat)
    (h : stepCore false fuel t op = some (tr, false, r)) :
    stepCore true fuel t op = some (tr, false, r) := by
  cases op with
  | ins k v =>
      simp only [stepCore, Option.map_eq_some'] at h ⊢
      obtain ⟨⟨t1, e1⟩, hi, hr⟩ := h
      simp only [Prod.mk.injEq] at hr
      obtain ⟨h1, h2, h3⟩ := hr
      rw [h1] at hi
      rw [h2] at hi
      exact ⟨(tr, false), insertCore_engine_agnostic _ _ _ _ _ hi, by simp [h3]⟩
  | upd k v => exact h
  | rem k => exact h
  | look k => exact h

/-- Engine agnosticism for whole operation sequences: when the `node.h`
engine's run reports no equal-separator event, the `part_000` engine runs to
the identical final tree with the identical observable results. -/
theorem runCore_engine_agnostic :
    ∀ (ops : List Op) (fuel : Nat) (t : Tree) (tr : Tree) (rs : List Nat),
      runCore false fuel ops t = some (tr, false, rs) →
      runCore true fuel ops t = some (tr, false, rs) := by
  intro ops
  induction ops with
  | nil =>
      intro fuel t tr rs h
      simpa [runCore] using h
  | cons op rest ih =>
      intro fuel t tr rs h
      simp only [runCore, Option.bind_eq_bind, Option.bind_eq_some] at h ⊢
      obtain ⟨s, hs, h2⟩ := h
      obtain ⟨r, hr, h3⟩ := h2
      obtain ⟨s1, sflag, sres⟩ := s
      obtain ⟨r1, rflag, rres⟩ := r
      rw [Option.pure_def, Option.some.injEq] at h3
      simp only [Prod.mk.injEq] at h3
      obtain ⟨h4, h5, h6⟩ := h3
      obtain ⟨hsf, hrf⟩ := Bool.or_eq_false_iff.mp h5
      subst hsf
      subst hrf
      subst h4
      subst h6
      refine ⟨(s1, false, sres), stepCore_engine_agnostic _ _ _ _ _ hs, ?_⟩
      exact ⟨(r1, false, rres), ih _ _ _ _ hr, rfl⟩

end EngineAgnostic

/-- C7: on the freshly constructed tree (whose root is the empty level-0 node
that the orchestrator reads as a leaf), `lookup` returns 0 and `remove`
returns false leaving the tree unchanged, for every key; neither operation
reports an error.  Any traversal fuel of at least 2 (one descent-loop step
plus one rightward-hop check) completes the traversal. -/
theorem empty_tree_lookup_remove :
    ∀ (key fuel : Nat), 2 ≤ fuel →
      BLinkTree.lookup initTree key fuel = some 0 ∧
      BLinkTree.remove initTree key fuel = some (false, initTree) := by
  intro key fuel hfuel
  obtain ⟨f, rfl⟩ : ∃ f, fuel = f + 2 := ⟨fuel - 2, by omega⟩
  have htrav : traverse_to_leafnode initTree key (f + 2) = some ([], 0) := by
    simp [traverse_to_leafnode, descendLoop, chase, initTree, Tree.getNode]
  constructor
  · simp only [BLinkTree.lookup]
    rw [htrav]
    simp [LeafNode.find, LeafNode.find_linear, Tree.getNode, initTree]
  · simp only [BLinkTree.remove]
    rw [htrav]
    simp [LeafNode.remove, LeafNode.find_pos_linear, Tree.getNode, Tree.setNode,
      initTree, List.set_cons_zero]

/-- Witness for C7 at key 5 with fuel 2. -/
theorem empty_tree_lookup_remove_witness :
    BLinkTree.lookup initTree 5 2 = some 0 ∧
    BLinkTree.remove initTree 5 2 = some (false, initTree) :=
  empty_tree_lookup_remove 5 2 (by decide)

/-- C6, counterexample.  The claim states `height()` returns an integer of at
least 1 on every reachable tree state including the state immediately after
construction.  But `BLinkTree::height` returns `root->level`, and the
constructor makes a level-0 root, so the freshly constructed tree — which is
reachable — has height 0. -/
theorem height_counterexample :
    Reachable initTree ∧ BLinkTree.height initTree < 1 :=
  ⟨Reachable.init, by decide⟩

/-- C6, amended: on every reachable tree state `height()` returns an integer
greater than or equal to 0 (it is the root node's `level`, a tree height
minus one); immediately after construction it returns 0, not 1. -/
theorem height_nonneg_amended :
    (∀ t, Reachable t → 0 ≤ BLinkTree.height t) ∧ BLinkTree.height initTree = 0 := by
  constructor
  · intro t _
    exact Int.natCast_nonneg _
  · decide

/-- Witness for C6's amended theorem at the reachable state `initTree`. -/
theorem height_nonneg_amended_witness : 0 ≤ BLinkTree.height initTree :=
  height_nonneg_amended.1 initTree Reachable.init

/-- C10, counterexample.  The claim states the two `BLinkTree` implementations
build equal trees on every operation sequence.  Inserting the key 7 a total of
466 times makes an internal node split while the pending separator equals the
promoted split key (both are 7): the `node.h` engine (src/node.h:728,
`insert_key < split_key`) sends the separator to the right half while the
`part_000` engine (src/unnamed/part_000:146, `split_key <= _split_key`) sends
it to the left half, and the runs produce different trees (node 2 holds 15
entries under the former and 16 under the latter). -/
theorem impls_diverge_counterexample :
    runCore false 100 (List.replicate 466 (Op.ins 7 1)) initTree ≠
      runCore true 100 (List.replicate 466 (Op.ins 7 1)) initTree := by
  intro hEq
  have h1 : (runCore false 100 (List.replicate 466 (Op.ins 7 1)) initTree).map
      (fun r => (r.1.getNode 2).entries.length) = some 15 := by decide
  have h2 : (runCore true 100 (List.replicate 466 (Op.ins 7 1)) initTree).map
      (fun r => (r.1.getNode 2).entries.length) = some 16 := by decide
  rw [hEq] at h1
  rw [h1] at h2
  exact absurd h2 (by decide)

/-- C10, amended: the two implementations are observationally equivalent when
run single-threaded on every operation sequence whose execution never splits
an internal node while the pending separator equals the promoted split key
(the one comparison on which the two files differ; distinct-key workloads
never produce such a split).  When the `node.h` engine's run from the fresh
tree completes with no such equal-separator event, the `part_000` engine's
run returns the identical final tree and the identical observable results.
Duplicate-key workloads can hit the event and build diverging trees. -/
theorem impls_equiv_eventfree (ops : List Op) (fuel : Nat) (tr : Tree) (rs : List Nat)
    (h : runCore false fuel ops initTree = some (tr, false, rs)) :
    runCore true fuel ops initTree = some (tr, false, rs) :=
  runCore_engine_agnostic ops fuel initTree tr rs h

/-- Witness for C10's amended theorem on a concrete event-free sequence of
inserts, a lookup, an update and a remove. -/
theorem impls_equiv_eventfree_witness :
    runCore true 10 [Op.ins 5 100, Op.ins 3 101, Op.look 3, Op.upd 3 7,
        Op.rem 5, Op.look 5] initTree =
      some (⟨[⟨0, 5, none, [(3, 7)], 0⟩], 0⟩, false, [0, 0, 101, 1, 1, 0]) :=
  impls_equiv_eventfree _ _ _ _ (by decide)

/-- C1: the specification says `try_writelock` succeeds (advancing the version
by 2, lock bit set) exactly when the observed version is neither locked nor
obsolete, and restarts otherwise.  The code has the test inverted
(`if (!restart) return false;` in src/node.h:68): on a free version word 0 it
returns false and leaves the word at 0, and on a locked word 2 its CAS
succeeds, "acquiring" a node that is already locked.  This theorem evaluates
the code at the failing input 0 (and at 2), and shows that in general success
occurs exactly when the observed version IS locked or obsolete — the precise
negation of the claimed guard. -/
theorem try_writelock_guard_inverted :
    try_writelock 0 = (false, 0) ∧ try_writelock 2 = (true, 4) ∧
      ∀ version : Nat,
        ((try_writelock version).1 = true ↔ need_restart version = true) := by
  refine ⟨rfl, rfl, ?_⟩
  intro version
  unfold try_writelock
  cases h : need_restart version <;> simp [h]

end BlinkTreeModel
